import Mathlib

/-!
# Prayer Hall Carpet Layout Designer — verification of the core geometry

Shallow embedding of `src/prayer_hall.py`.  The numeric type of the source
(Python floats) is modelled by `ℚ`; all comparisons in the source are order
comparisons, which `ℚ` reflects exactly.

* `parse_column_line` / `parse_columns` embed `parse_columns` (lines 17–40).
  Python's `float(...)` conversion and the floating-point division by `2π`
  in `circumference_to_radius` have no exact rational counterpart, so both
  are parameters (`parseNum`, `c2r`); no claim depends on their values.
* `build_rows_aux` / `build_rows` embed `build_rows` (lines 67–89).  The
  Python `while True` loop has no bound and can diverge (for non-positive
  resolved heights), so the embedding carries explicit fuel; `none` means
  the loop did not finish within `fuel` iterations.
* `custom_cols`, `row_cols`, `is_custom` embed the classification part of
  `plot_prayer_hall` (lines 102–117).
* `cut_of`, `cuts_of`, `sort_by_start`, `merge_from`, `merge_sorted`,
  `merge_intervals`, `leftover_from`, `leftover_of`, `segment_row` embed the
  per-row cut/merge/leftover computation of the console summary
  (lines 153–196).  The Python loop keeps the accumulated intervals in a
  list and mutates/compares its last element; `merge_from` carries that
  last element (`merged[-1]`) as its first argument and emits it when a
  gap starts, which is the same computation.
-/

namespace PrayerHall

/-- A parsed column: `(label, cx, cy, radius)` from `parse_columns`. -/
structure Column where
  lbl : String
  cx : ℚ
  cy : ℚ
  cr : ℚ
deriving DecidableEq, Repr

/-- Python tuple unpacking `lbl, sx, sy, scirc = parts`: succeeds exactly on
lists of length 4, raises `ValueError` (here `none`) otherwise. -/
def unpack4 {α : Type} : List α → Option (α × α × α × α)
  | [a, b, c, d] => some (a, b, c, d)
  | _ => none

/-- The field handling of one `parse_columns` loop iteration
(lines 31–39): the explicit `len(parts) < 4` check, the 4-way tuple
unpacking (which raises on more than 4 fields), and the three numeric
conversions.  `parseNum` models Python `float` (raising on bad input);
`c2r` models `circumference_to_radius`. -/
def parse_fields (parseNum : String → Option ℚ) (c2r : ℚ → ℚ)
    (line : String) (parts : List String) : Except String Column :=
  if parts.length < 4 then Except.error ("Invalid column line: " ++ line)
  else
    match unpack4 parts with
    | none => Except.error "too many values to unpack"
    | some (lbl, sx, sy, scirc) =>
      match parseNum sx, parseNum sy, parseNum scirc with
      | some cx, some cy, some cc => Except.ok ⟨lbl, cx, cy, c2r cc⟩
      | _, _, _ => Except.error "could not convert string to float"

/-- One iteration of the loop body of `parse_columns` (lines 27–39):
strip the line, skip it when blank (`ok none` is the `continue`), split it
on commas, strip the parts, and hand them to `parse_fields`. -/
def parse_column_line (parseNum : String → Option ℚ) (c2r : ℚ → ℚ)
    (line : String) : Except String (Option Column) :=
  let l := line.trim
  if l = "" then Except.ok none
  else
    (parse_fields parseNum c2r l ((l.splitOn ",").map String.trim)).map some

/-- `parse_columns` over the (already line-split) input text. -/
def parse_columns (parseNum : String → Option ℚ) (c2r : ℚ → ℚ) :
    List String → Except String (List Column)
  | [] => Except.ok []
  | ln :: rest => do
    let c? ← parse_column_line parseNum c2r ln
    let cs ← parse_columns parseNum c2r rest
    match c? with
    | none => Except.ok cs
    | some c => Except.ok (c :: cs)

/-- `forced_heights.get(i, default_height)`: the dict is a key/value list
(keys unique in the source; the first match wins). -/
def resolved_height (forced : List (Nat × ℚ)) (d : ℚ) (i : Nat) : ℚ :=
  match forced with
  | [] => d
  | (k, h) :: rest => if i = k then h else resolved_height rest d i

/-- The `while True` loop of `build_rows` (lines 74–88), with fuel.
State: current cursor `cur` (= `cur_y`) and row index `i`.  Each
iteration: stop when `cur_y >= total_length`; otherwise resolve the
height, clamp `y_end` to `total_length`, emit `(i, cur_y, y_end)` and
advance.  `none` = the loop did not terminate within `fuel` iterations. -/
def build_rows_aux (L d : ℚ) (forced : List (Nat × ℚ)) :
    Nat → ℚ → Nat → Option (List (Nat × ℚ × ℚ))
  | 0, _, _ => none
  | fuel + 1, cur, i =>
    if L ≤ cur then some []
    else
      let h := resolved_height forced d i
      let e := if L < cur + h then L else cur + h
      match build_rows_aux L d forced fuel e (i + 1) with
      | none => none
      | some rest => some ((i, cur, e) :: rest)

/-- `build_rows(total_length, default_height, forced_heights)`. -/
def build_rows (fuel : Nat) (L d : ℚ) (forced : List (Nat × ℚ)) :
    Option (List (Nat × ℚ × ℚ)) :=
  build_rows_aux L d forced fuel 0 1

/-- `in_band(cy, ystart, yend)` (lines 102–103): `cy >= ystart and cy < yend`. -/
def in_band (cy ystart yend : ℚ) : Bool :=
  decide (ystart ≤ cy) && decide (cy < yend)

/-- `custom_cols` (lines 106–107): the columns whose label is not ignored
(`lbl not in columns_to_ignore`). -/
def custom_cols (columns : List Column) (ignore : List String) : List Column :=
  columns.filter (fun c => decide (c.lbl ∉ ignore))

/-- `row_cols` for one row (lines 112–115): non-ignored columns whose
center y lies in the row band. -/
def row_cols (columns : List Column) (ignore : List String) (ys ye : ℚ) :
    List Column :=
  (custom_cols columns ignore).filter (fun c => in_band c.cy ys ye)

/-- `is_custom = bool(row_cols)` (line 116). -/
def is_custom (columns : List Column) (ignore : List String) (ys ye : ℚ) :
    Bool :=
  !(row_cols columns ignore ys ye).isEmpty

/-- The cut interval of one column (lines 163–170): horizontal span
clamped to `[0, W]`, dropped when it does not have positive width. -/
def cut_of (W : ℚ) (c : Column) : Option (ℚ × ℚ) :=
  let xmin := c.cx - c.cr
  let xmax := c.cx + c.cr
  let xmin' := if xmin < 0 then 0 else xmin
  let xmax' := if W < xmax then W else xmax
  if xmin' < xmax' then some (xmin', xmax') else none

/-- The `cuts` list of a row (lines 162–170). -/
def cuts_of (rc : List Column) (W : ℚ) : List (ℚ × ℚ) :=
  rc.filterMap (cut_of W)

/-- The comparison used by `cuts.sort(key=lambda x: x[0])`. -/
def start_le (a b : ℚ × ℚ) : Prop :=
  a.1 ≤ b.1

instance : DecidableRel start_le :=
  fun a b => inferInstanceAs (Decidable (a.1 ≤ b.1))

instance : IsTotal (ℚ × ℚ) start_le :=
  ⟨fun a b => le_total a.1 b.1⟩

instance : IsTrans (ℚ × ℚ) start_le :=
  ⟨fun _ _ _ h h' => le_trans h h'⟩

/-- `cuts.sort(key=lambda x: x[0])` (line 171): stable sort by start
(Python's sort is stable; any stable sort by the key is the same function). -/
def sort_by_start (l : List (ℚ × ℚ)) : List (ℚ × ℚ) :=
  l.insertionSort start_le

/-- The merging loop (lines 172–181).  `a` is the accumulated last
interval `merged[-1]`; on overlap (`iv[0] <= prev[1]`) its end is extended
to the max, otherwise `a` is final and the next interval starts a new
accumulator. -/
def merge_from (a : ℚ × ℚ) : List (ℚ × ℚ) → List (ℚ × ℚ)
  | [] => [a]
  | b :: rest =>
    if b.1 ≤ a.2 then merge_from (a.1, max a.2 b.2) rest
    else a :: merge_from b rest

/-- The merging loop including its `if not merged` start-up case. -/
def merge_sorted : List (ℚ × ℚ) → List (ℚ × ℚ)
  | [] => []
  | a :: l => merge_from a l

/-- Sort then merge: lines 171–181 as one function. -/
def merge_intervals (l : List (ℚ × ℚ)) : List (ℚ × ℚ) :=
  merge_sorted (sort_by_start l)

/-- The leftover-segment walk (lines 183–190).  `sx` is `start_x`. -/
def leftover_from (W : ℚ) : ℚ → List (ℚ × ℚ) → List (ℚ × ℚ)
  | sx, [] => if sx < W then [(sx, W)] else []
  | sx, (cs, ce) :: rest =>
    if sx < cs then (sx, cs) :: leftover_from W ce rest
    else leftover_from W ce rest

/-- `leftover` of a merged list (lines 183–190), starting at `start_x = 0`. -/
def leftover_of (merged : List (ℚ × ℚ)) (W : ℚ) : List (ℚ × ℚ) :=
  leftover_from W 0 merged

/-- The per-row console summary (lines 154–196) as data:
`(is_custom, merged cut intervals, usable segments)`.  A plain row is
reported as the full `W × h` rectangle, i.e. the single usable segment
`(0, W)` and no cuts; a custom row gets the computed merged cuts and
leftover segments. -/
def segment_row (columns : List Column) (ignore : List String)
    (W ys ye : ℚ) : Bool × List (ℚ × ℚ) × List (ℚ × ℚ) :=
  let rc := row_cols columns ignore ys ye
  if rc.isEmpty then (false, [], [(0, W)])
  else
    let merged := merge_intervals (cuts_of rc W)
    (true, merged, leftover_of merged W)

/-- The set of points covered by a list of `[start, end)` spans. -/
def unionIco (l : List (ℚ × ℚ)) : Set ℚ :=
  {x | ∃ p ∈ l, p.1 ≤ x ∧ x < p.2}

/-- The set of points covered by a list of `[start, end]` spans. -/
def unionIcc (l : List (ℚ × ℚ)) : Set ℚ :=
  {x | ∃ p ∈ l, p.1 ≤ x ∧ x ≤ p.2}

/-- The set of points covered by the `[y_start, y_end)` bands of a row list. -/
def rows_cover (rows : List (Nat × ℚ × ℚ)) : Set ℚ :=
  {x | ∃ r ∈ rows, r.2.1 ≤ x ∧ x < r.2.2}

/-! ## Lemmas about the interval merge -/

lemma merge_from_starts (l : List (ℚ × ℚ)) (a : ℚ × ℚ) :
    ∀ q ∈ merge_from a l, q.1 = a.1 ∨ q.1 ∈ l.map Prod.fst := by
  induction l generalizing a with
  | nil =>
    intro q hq
    simp only [merge_from, List.mem_singleton] at hq
    simp [hq]
  | cons b rest ih =>
    intro q hq
    simp only [merge_from] at hq
    by_cases hb : b.1 ≤ a.2
    · rw [if_pos hb] at hq
      rcases ih _ q hq with h | h
      · exact Or.inl h
      · exact Or.inr (by simp [h])
    · rw [if_neg hb, List.mem_cons] at hq
      rcases hq with rfl | hq
      · exact Or.inl rfl
      · rcases ih _ q hq with h | h
        · exact Or.inr (by simp [h])
        · exact Or.inr (by simp [h])

lemma merge_from_ends (l : List (ℚ × ℚ)) (a : ℚ × ℚ) :
    ∀ q ∈ merge_from a l, q.2 = a.2 ∨ q.2 ∈ l.map Prod.snd := by
  induction l generalizing a with
  | nil =>
    intro q hq
    simp only [merge_from, List.mem_singleton] at hq
    simp [hq]
  | cons b rest ih =>
    intro q hq
    simp only [merge_from] at hq
    by_cases hb : b.1 ≤ a.2
    · rw [if_pos hb] at hq
      rcases ih _ q hq with h | h
      · rcases max_choice a.2 b.2 with hm | hm
        · exact Or.inl (by rw [h, hm])
        · exact Or.inr (by simp [h, hm])
      · exact Or.inr (by simp [h])
    · rw [if_neg hb, List.mem_cons] at hq
      rcases hq with rfl | hq
      · exact Or.inl rfl
      · rcases ih _ q hq with h | h
        · exact Or.inr (by simp [h])
        · exact Or.inr (by simp [h])

lemma merge_from_proper_le (l : List (ℚ × ℚ)) (a : ℚ × ℚ)
    (ha : a.1 ≤ a.2) (hl : ∀ p ∈ l, p.1 ≤ p.2) :
    ∀ q ∈ merge_from a l, q.1 ≤ q.2 := by
  induction l generalizing a with
  | nil =>
    intro q hq
    simp only [merge_from, List.mem_singleton] at hq
    rw [hq]; exact ha
  | cons b rest ih =>
    intro q hq
    simp only [merge_from] at hq
    by_cases hb : b.1 ≤ a.2
    · rw [if_pos hb] at hq
      exact ih (a.1, max a.2 b.2) (le_trans ha (le_max_left _ _))
        (fun p hp => hl p (List.mem_cons_of_mem b hp)) q hq
    · rw [if_neg hb, List.mem_cons] at hq
      rcases hq with rfl | hq
      · exact ha
      · exact ih _ (hl b (List.mem_cons_self _ _))
          (fun p hp => hl p (List.mem_cons_of_mem b hp)) q hq

lemma merge_from_proper_lt (l : List (ℚ × ℚ)) (a : ℚ × ℚ)
    (ha : a.1 < a.2) (hl : ∀ p ∈ l, p.1 < p.2) :
    ∀ q ∈ merge_from a l, q.1 < q.2 := by
  induction l generalizing a with
  | nil =>
    intro q hq
    simp only [merge_from, List.mem_singleton] at hq
    rw [hq]; exact ha
  | cons b rest ih =>
    intro q hq
    simp only [merge_from] at hq
    by_cases hb : b.1 ≤ a.2
    · rw [if_pos hb] at hq
      exact ih (a.1, max a.2 b.2) (lt_of_lt_of_le ha (le_max_left _ _))
        (fun p hp => hl p (List.mem_cons_of_mem b hp)) q hq
    · rw [if_neg hb, List.mem_cons] at hq
      rcases hq with rfl | hq
      · exact ha
      · exact ih _ (hl b (List.mem_cons_self _ _))
          (fun p hp => hl p (List.mem_cons_of_mem b hp)) q hq

lemma merge_from_gap (l : List (ℚ × ℚ)) (a : ℚ × ℚ)
    (hl : l.Pairwise start_le) (ha : ∀ p ∈ l, a.1 ≤ p.1) :
    (merge_from a l).Pairwise (fun p q => p.2 < q.1) := by
  induction l generalizing a with
  | nil => simp [merge_from]
  | cons b rest ih =>
    rw [List.pairwise_cons] at hl
    simp only [merge_from]
    by_cases hb : b.1 ≤ a.2
    · rw [if_pos hb]
      exact ih _ hl.2
        (fun p hp => le_trans (ha b (List.mem_cons_self _ _)) (hl.1 p hp))
    · rw [if_neg hb]
      push_neg at hb
      refine List.pairwise_cons.2 ⟨?_, ih _ hl.2 (fun p hp => hl.1 p hp)⟩
      intro q hq
      rcases merge_from_starts rest b q hq with h | h
      · rw [h]; exact hb
      · rw [List.mem_map] at h
        obtain ⟨p, hp, hps⟩ := h
        exact lt_of_lt_of_le hb (hps ▸ hl.1 p hp)

lemma merge_from_sorted (l : List (ℚ × ℚ)) (a : ℚ × ℚ)
    (hl : l.Pairwise start_le) (ha : ∀ p ∈ l, a.1 ≤ p.1) :
    (merge_from a l).Pairwise start_le := by
  induction l generalizing a with
  | nil => simp [merge_from]
  | cons b rest ih =>
    rw [List.pairwise_cons] at hl
    simp only [merge_from]
    by_cases hb : b.1 ≤ a.2
    · rw [if_pos hb]
      exact ih _ hl.2
        (fun p hp => le_trans (ha b (List.mem_cons_self _ _)) (hl.1 p hp))
    · rw [if_neg hb]
      refine List.pairwise_cons.2 ⟨?_, ih _ hl.2 (fun p hp => hl.1 p hp)⟩
      intro q hq
      rcases merge_from_starts rest b q hq with h | h
      · rw [start_le, h]; exact ha b (List.mem_cons_self _ _)
      · rw [List.mem_map] at h
        obtain ⟨p, hp, hps⟩ := h
        exact le_trans (ha b (List.mem_cons_self _ _)) (hps ▸ hl.1 p hp)

lemma merge_from_id (l : List (ℚ × ℚ)) (a : ℚ × ℚ)
    (h : (a :: l).Pairwise (fun p q => p.2 < q.1)) :
    merge_from a l = a :: l := by
  induction l generalizing a with
  | nil => simp [merge_from]
  | cons b rest ih =>
    rw [List.pairwise_cons] at h
    have hab : a.2 < b.1 := h.1 b (List.mem_cons_self _ _)
    simp only [merge_from, if_neg (not_le.2 hab)]
    rw [ih b h.2]

lemma sort_by_start_sorted (l : List (ℚ × ℚ)) :
    (sort_by_start l).Pairwise start_le :=
  List.sorted_insertionSort start_le l

lemma sort_by_start_perm (l : List (ℚ × ℚ)) :
    List.Perm (sort_by_start l) l :=
  List.perm_insertionSort start_le l

lemma merge_sorted_gap (l : List (ℚ × ℚ)) (hl : l.Pairwise start_le) :
    (merge_sorted l).Pairwise (fun p q => p.2 < q.1) := by
  cases l with
  | nil => simp [merge_sorted]
  | cons a t =>
    rw [List.pairwise_cons] at hl
    exact merge_from_gap t a hl.2 hl.1

lemma merge_sorted_sorted (l : List (ℚ × ℚ)) (hl : l.Pairwise start_le) :
    (merge_sorted l).Pairwise start_le := by
  cases l with
  | nil => simp [merge_sorted]
  | cons a t =>
    rw [List.pairwise_cons] at hl
    exact merge_from_sorted t a hl.2 hl.1

lemma merge_intervals_gap (l : List (ℚ × ℚ)) :
    (merge_intervals l).Pairwise (fun p q => p.2 < q.1) :=
  merge_sorted_gap _ (sort_by_start_sorted l)

lemma merge_intervals_sorted (l : List (ℚ × ℚ)) :
    (merge_intervals l).Pairwise start_le :=
  merge_sorted_sorted _ (sort_by_start_sorted l)

lemma merge_sorted_mem_starts (l : List (ℚ × ℚ)) :
    ∀ q ∈ merge_sorted l, q.1 ∈ l.map Prod.fst := by
  cases l with
  | nil => simp [merge_sorted]
  | cons a t =>
    intro q hq
    rcases merge_from_starts t a q hq with h | h
    · simp [h]
    · simp only [List.map_cons, List.mem_cons]
      exact Or.inr h

lemma merge_sorted_mem_ends (l : List (ℚ × ℚ)) :
    ∀ q ∈ merge_sorted l, q.2 ∈ l.map Prod.snd := by
  cases l with
  | nil => simp [merge_sorted]
  | cons a t =>
    intro q hq
    rcases merge_from_ends t a q hq with h | h
    · simp [h]
    · simp only [List.map_cons, List.mem_cons]
      exact Or.inr h

lemma merge_intervals_bounds (l : List (ℚ × ℚ)) (lo hi : ℚ)
    (hlo : ∀ p ∈ l, lo ≤ p.1) (hhi : ∀ p ∈ l, p.2 ≤ hi)
    (hpr : ∀ p ∈ l, p.1 < p.2) :
    ∀ q ∈ merge_intervals l, lo ≤ q.1 ∧ q.1 < q.2 ∧ q.2 ≤ hi := by
  intro q hq
  have hperm := sort_by_start_perm l
  have hlo' : ∀ p ∈ sort_by_start l, lo ≤ p.1 :=
    fun p hp => hlo p (hperm.mem_iff.1 hp)
  have hhi' : ∀ p ∈ sort_by_start l, p.2 ≤ hi :=
    fun p hp => hhi p (hperm.mem_iff.1 hp)
  have hpr' : ∀ p ∈ sort_by_start l, p.1 < p.2 :=
    fun p hp => hpr p (hperm.mem_iff.1 hp)
  refine ⟨?_, ?_, ?_⟩
  · have := merge_sorted_mem_starts (sort_by_start l) q hq
    rw [List.mem_map] at this
    obtain ⟨p, hp, hps⟩ := this
    exact hps ▸ hlo' p hp
  · cases hsort : sort_by_start l with
    | nil => rw [merge_intervals, hsort] at hq; simp [merge_sorted] at hq
    | cons a t =>
      rw [merge_intervals, hsort] at hq
      have ha : a.1 < a.2 := hpr' a (by rw [hsort]; exact (List.mem_cons_self _ _))
      have ht : ∀ p ∈ t, p.1 < p.2 :=
        fun p hp => hpr' p (by rw [hsort]; exact List.mem_cons_of_mem a hp)
      exact merge_from_proper_lt t a ha ht q hq
  · have := merge_sorted_mem_ends (sort_by_start l) q hq
    rw [List.mem_map] at this
    obtain ⟨p, hp, hps⟩ := this
    exact hps ▸ hhi' p hp

lemma disjoint_Icc_of_lt (p q : ℚ × ℚ) (h : p.2 < q.1) :
    Disjoint (Set.Icc p.1 p.2) (Set.Icc q.1 q.2) := by
  rw [Set.disjoint_left]
  intro x hx hx'
  exact lt_irrefl x ((hx.2.trans_lt h).trans_le hx'.1)

lemma disjoint_Ico_of_le (p q : ℚ × ℚ) (h : p.2 ≤ q.1) :
    Disjoint (Set.Ico p.1 p.2) (Set.Ico q.1 q.2) := by
  rw [Set.disjoint_left]
  intro x hx hx'
  exact lt_irrefl x (hx.2.trans_le (h.trans hx'.1))

lemma disjoint_Ioo_of_le (p q : ℚ × ℚ) (h : p.2 ≤ q.1) :
    Disjoint (Set.Ioo p.1 p.2) (Set.Ioo q.1 q.2) := by
  rw [Set.disjoint_left]
  intro x hx hx'
  exact lt_irrefl x (hx.2.trans_le (h.trans (le_of_lt hx'.1)))

/-- C6: for every finite input list of `(start, end)` pairs with
`end ≥ start`, the interval-merge procedure (sort by start, fold merging
when the next start is ≤ the accumulated end) returns a list that is
sorted by start and pairwise non-overlapping (successive results even have
a strict gap, so they are disjoint as closed intervals). -/
theorem merge_intervals_sorted_nonoverlapping (l : List (ℚ × ℚ))
    (hl : ∀ p ∈ l, p.1 ≤ p.2) :
    (merge_intervals l).Pairwise start_le ∧
    (merge_intervals l).Pairwise
      (fun p q => Disjoint (Set.Icc p.1 p.2) (Set.Icc q.1 q.2)) :=
  ⟨merge_intervals_sorted l,
    (merge_intervals_gap l).imp (fun h => disjoint_Icc_of_lt _ _ h)⟩

/-- Witness for C6 at the input `[(2, 6), (5, 8)]`. -/
theorem merge_intervals_sorted_nonoverlapping_witness :
    (∀ p ∈ [((2:ℚ), (6:ℚ)), (5, 8)], p.1 ≤ p.2) ∧
    ((merge_intervals [((2:ℚ), (6:ℚ)), (5, 8)]).Pairwise start_le ∧
      (merge_intervals [((2:ℚ), (6:ℚ)), (5, 8)]).Pairwise
        (fun p q => Disjoint (Set.Icc p.1 p.2) (Set.Icc q.1 q.2))) :=
  ⟨by decide, merge_intervals_sorted_nonoverlapping _ (by decide)⟩

/-- C7: the interval-merge procedure is idempotent: applying it to its own
output returns that output unchanged, for every input list. -/
theorem merge_intervals_idem (l : List (ℚ × ℚ)) :
    merge_intervals (merge_intervals l) = merge_intervals l := by
  have hs : (merge_intervals l).Pairwise start_le := merge_intervals_sorted l
  have hg := merge_intervals_gap l
  have hsort : sort_by_start (merge_intervals l) = merge_intervals l :=
    List.Sorted.insertionSort_eq hs
  show merge_sorted (sort_by_start (merge_intervals l)) = merge_intervals l
  rw [hsort]
  cases h : merge_intervals l with
  | nil => simp [merge_sorted]
  | cons a t =>
    rw [h] at hg
    show merge_from a t = a :: t
    exact merge_from_id t a hg

/-! ## Lemmas about the leftover-segment walk -/

lemma leftover_from_bounds (W : ℚ) (m : List (ℚ × ℚ)) (sx : ℚ)
    (hm : m.Pairwise (fun p q => p.2 < q.1))
    (hb : ∀ p ∈ m, sx ≤ p.1 ∧ p.1 < p.2 ∧ p.2 ≤ W) :
    ∀ q ∈ leftover_from W sx m, sx ≤ q.1 ∧ q.1 < q.2 ∧ q.2 ≤ W := by
  induction m generalizing sx with
  | nil =>
    intro q hq
    simp only [leftover_from] at hq
    by_cases h : sx < W
    · rw [if_pos h, List.mem_singleton] at hq
      rw [hq]
      exact ⟨le_refl _, h, le_refl _⟩
    · rw [if_neg h] at hq
      exact absurd hq (List.not_mem_nil q)
  | cons c rest ih =>
    obtain ⟨cs, ce⟩ := c
    rw [List.pairwise_cons] at hm
    have hc := hb (cs, ce) (List.mem_cons_self _ _)
    have hrec := ih ce hm.2
      (fun p hp => ⟨le_of_lt (hm.1 p hp), (hb p (List.mem_cons_of_mem _ hp)).2⟩)
    intro q hq
    simp only [leftover_from] at hq
    by_cases h : sx < cs
    · rw [if_pos h, List.mem_cons] at hq
      rcases hq with rfl | hq
      · exact ⟨le_refl _, h, le_trans (le_of_lt hc.2.1) hc.2.2⟩
      · have hq' := hrec q hq
        exact ⟨le_trans hc.1 (le_trans (le_of_lt hc.2.1) hq'.1), hq'.2⟩
    · rw [if_neg h] at hq
      have hq' := hrec q hq
      exact ⟨le_trans hc.1 (le_trans (le_of_lt hc.2.1) hq'.1), hq'.2⟩

lemma leftover_from_pairwise (W : ℚ) (m : List (ℚ × ℚ)) (sx : ℚ)
    (hm : m.Pairwise (fun p q => p.2 < q.1))
    (hb : ∀ p ∈ m, sx ≤ p.1 ∧ p.1 < p.2 ∧ p.2 ≤ W) :
    (leftover_from W sx m).Pairwise (fun p q => p.2 ≤ q.1) := by
  induction m generalizing sx with
  | nil =>
    simp only [leftover_from]
    by_cases h : sx < W
    · rw [if_pos h]; exact List.pairwise_singleton _ _
    · rw [if_neg h]; exact List.Pairwise.nil
  | cons c rest ih =>
    obtain ⟨cs, ce⟩ := c
    rw [List.pairwise_cons] at hm
    have hc := hb (cs, ce) (List.mem_cons_self _ _)
    have hbrest : ∀ p ∈ rest, ce ≤ p.1 ∧ p.1 < p.2 ∧ p.2 ≤ W :=
      fun p hp => ⟨le_of_lt (hm.1 p hp), (hb p (List.mem_cons_of_mem _ hp)).2⟩
    have hrec := ih ce hm.2 hbrest
    simp only [leftover_from]
    by_cases h : sx < cs
    · rw [if_pos h]
      refine List.pairwise_cons.2 ⟨?_, hrec⟩
      intro q hq
      have hq' := leftover_from_bounds W rest ce hm.2 hbrest q hq
      exact le_trans (le_of_lt hc.2.1) hq'.1
    · rw [if_neg h]
      exact hrec

lemma leftover_from_cross (W : ℚ) (m : List (ℚ × ℚ)) (sx : ℚ)
    (hm : m.Pairwise (fun p q => p.2 < q.1))
    (hb : ∀ p ∈ m, sx ≤ p.1 ∧ p.1 < p.2 ∧ p.2 ≤ W) :
    ∀ p ∈ m, ∀ q ∈ leftover_from W sx m, q.2 ≤ p.1 ∨ p.2 ≤ q.1 := by
  induction m generalizing sx with
  | nil => intro p hp; exact absurd hp (List.not_mem_nil p)
  | cons c rest ih =>
    obtain ⟨cs, ce⟩ := c
    rw [List.pairwise_cons] at hm
    have hc := hb (cs, ce) (List.mem_cons_self _ _)
    have hbrest : ∀ p ∈ rest, ce ≤ p.1 ∧ p.1 < p.2 ∧ p.2 ≤ W :=
      fun p hp => ⟨le_of_lt (hm.1 p hp), (hb p (List.mem_cons_of_mem _ hp)).2⟩
    intro p hp q hq
    simp only [leftover_from] at hq
    by_cases h : sx < cs
    · rw [if_pos h, List.mem_cons] at hq
      rcases hq with rfl | hq
      · rcases List.mem_cons.1 hp with rfl | hp'
        · exact Or.inl (le_refl _)
        · exact Or.inl (le_trans (le_of_lt hc.2.1) (le_of_lt (hm.1 p hp')))
      · rcases List.mem_cons.1 hp with rfl | hp'
        · exact Or.inr (leftover_from_bounds W rest ce hm.2 hbrest q hq).1
        · exact ih ce hm.2 hbrest p hp' q hq
    · rw [if_neg h] at hq
      rcases List.mem_cons.1 hp with rfl | hp'
      · exact Or.inr (leftover_from_bounds W rest ce hm.2 hbrest q hq).1
      · exact ih ce hm.2 hbrest p hp' q hq

lemma mem_unionIco (l : List (ℚ × ℚ)) (x : ℚ) :
    x ∈ unionIco l ↔ ∃ p ∈ l, p.1 ≤ x ∧ x < p.2 :=
  Iff.rfl

lemma mem_unionIcc (l : List (ℚ × ℚ)) (x : ℚ) :
    x ∈ unionIcc l ↔ ∃ p ∈ l, p.1 ≤ x ∧ x ≤ p.2 :=
  Iff.rfl

lemma leftover_cover (W : ℚ) (m : List (ℚ × ℚ)) (sx : ℚ)
    (hm : m.Pairwise (fun p q => p.2 < q.1))
    (hb : ∀ p ∈ m, sx ≤ p.1 ∧ p.1 < p.2 ∧ p.2 ≤ W)
    (hsx : sx ≤ W) (x : ℚ) :
    (x ∈ unionIco m ∨ x ∈ unionIco (leftover_from W sx m)) ↔
      sx ≤ x ∧ x < W := by
  induction m generalizing sx with
  | nil =>
    simp only [leftover_from, mem_unionIco, List.not_mem_nil, false_and,
      exists_false, false_or]
    by_cases h : sx < W
    · rw [if_pos h]
      simp
    · rw [if_neg h]
      simp only [List.not_mem_nil, false_and, exists_false, false_iff, not_and]
      intro hx hx'
      exact absurd (lt_of_le_of_lt hx hx') h
  | cons c rest ih =>
    obtain ⟨cs, ce⟩ := c
    rw [List.pairwise_cons] at hm
    have hc := hb (cs, ce) (List.mem_cons_self _ _)
    have hbrest : ∀ p ∈ rest, ce ≤ p.1 ∧ p.1 < p.2 ∧ p.2 ≤ W :=
      fun p hp => ⟨le_of_lt (hm.1 p hp), (hb p (List.mem_cons_of_mem _ hp)).2⟩
    have hrec := ih ce hm.2 hbrest hc.2.2
    simp only [mem_unionIco] at hrec ⊢
    simp only [leftover_from]
    by_cases h : sx < cs
    · rw [if_pos h]
      simp only [List.mem_cons]
      constructor
      · rintro (⟨p, rfl | hp, hpx⟩ | ⟨p, rfl | hp, hpx⟩)
        · exact ⟨le_trans (le_of_lt h) hpx.1,
            lt_of_lt_of_le hpx.2 hc.2.2⟩
        · have := hrec.1 (Or.inl ⟨p, hp, hpx⟩)
          exact ⟨le_trans (le_of_lt h) (le_trans (le_of_lt hc.2.1) this.1),
            this.2⟩
        · exact ⟨hpx.1, lt_of_lt_of_le hpx.2
            (le_trans (le_of_lt hc.2.1) hc.2.2)⟩
        · have := hrec.1 (Or.inr ⟨p, hp, hpx⟩)
          exact ⟨le_trans (le_of_lt h) (le_trans (le_of_lt hc.2.1) this.1),
            this.2⟩
      · rintro ⟨h1, h2⟩
        by_cases hx1 : x < cs
        · exact Or.inr ⟨(sx, cs), Or.inl rfl, h1, hx1⟩
        · by_cases hx2 : x < ce
          · exact Or.inl ⟨(cs, ce), Or.inl rfl, not_lt.1 hx1, hx2⟩
          · rcases hrec.2 ⟨not_lt.1 hx2, h2⟩ with ⟨p, hp, hpx⟩ | ⟨p, hp, hpx⟩
            · exact Or.inl ⟨p, Or.inr hp, hpx⟩
            · exact Or.inr ⟨p, Or.inr hp, hpx⟩
    · rw [if_neg h]
      simp only [List.mem_cons]
      have hscs : cs ≤ sx := not_lt.1 h
      constructor
      · rintro (⟨p, rfl | hp, hpx⟩ | hx)
        · exact ⟨le_trans hc.1 hpx.1, lt_of_lt_of_le hpx.2 hc.2.2⟩
        · have := hrec.1 (Or.inl ⟨p, hp, hpx⟩)
          exact ⟨le_trans hc.1 (le_trans (le_of_lt hc.2.1) this.1), this.2⟩
        · have := hrec.1 (Or.inr hx)
          exact ⟨le_trans hc.1 (le_trans (le_of_lt hc.2.1) this.1), this.2⟩
      · rintro ⟨h1, h2⟩
        by_cases hx2 : x < ce
        · exact Or.inl ⟨(cs, ce), Or.inl rfl,
            le_trans hscs h1, hx2⟩
        · rcases hrec.2 ⟨not_lt.1 hx2, h2⟩ with ⟨p, hp, hpx⟩ | hx
          · exact Or.inl ⟨p, Or.inr hp, hpx⟩
          · exact Or.inr hx

lemma leftover_end_W (W : ℚ) (m : List (ℚ × ℚ)) (sx : ℚ)
    (hm : m.Pairwise (fun p q => p.2 < q.1))
    (hb : ∀ p ∈ m, sx ≤ p.1 ∧ p.1 < p.2 ∧ p.2 ≤ W)
    (hsx : sx < W) :
    ∃ q, (q ∈ m ∨ q ∈ leftover_from W sx m) ∧ q.2 = W := by
  induction m generalizing sx with
  | nil =>
    refine ⟨(sx, W), Or.inr ?_, rfl⟩
    simp [leftover_from, if_pos hsx]
  | cons c rest ih =>
    obtain ⟨cs, ce⟩ := c
    rw [List.pairwise_cons] at hm
    have hc := hb (cs, ce) (List.mem_cons_self _ _)
    have hbrest : ∀ p ∈ rest, ce ≤ p.1 ∧ p.1 < p.2 ∧ p.2 ≤ W :=
      fun p hp => ⟨le_of_lt (hm.1 p hp), (hb p (List.mem_cons_of_mem _ hp)).2⟩
    by_cases hce : ce < W
    · obtain ⟨q, hq, hqW⟩ := ih ce hm.2 hbrest hce
      refine ⟨q, ?_, hqW⟩
      rcases hq with hq | hq
      · exact Or.inl (List.mem_cons_of_mem _ hq)
      · refine Or.inr ?_
        simp only [leftover_from]
        by_cases h : sx < cs
        · rw [if_pos h]
          exact List.mem_cons_of_mem _ hq
        · rw [if_neg h]
          exact hq
    · exact ⟨(cs, ce), Or.inl (List.mem_cons_self _ _),
        le_antisymm hc.2.2 (not_lt.1 hce)⟩

/-- The partition property for any "merged-like" list within `[0, W]`. -/
lemma merged_leftover_partition (W : ℚ) (m : List (ℚ × ℚ)) (hW : 0 < W)
    (hm : m.Pairwise (fun p q => p.2 < q.1))
    (hb : ∀ p ∈ m, 0 ≤ p.1 ∧ p.1 < p.2 ∧ p.2 ≤ W) :
    unionIcc (m ++ leftover_of m W) = Set.Icc 0 W ∧
    (m ++ leftover_of m W).Pairwise
      (fun p q => Disjoint (Set.Ioo p.1 p.2) (Set.Ioo q.1 q.2)) := by
  have hWle : (0:ℚ) ≤ W := le_of_lt hW
  constructor
  · ext x
    rw [mem_unionIcc, Set.mem_Icc]
    constructor
    · rintro ⟨p, hp, hpx⟩
      rcases List.mem_append.1 hp with hp' | hp'
      · have := hb p hp'
        exact ⟨le_trans this.1 hpx.1, le_trans hpx.2 this.2.2⟩
      · have := leftover_from_bounds W m 0 hm hb p hp'
        exact ⟨le_trans this.1 hpx.1, le_trans hpx.2 this.2.2⟩
    · rintro ⟨h1, h2⟩
      by_cases hxW : x < W
      · have := (leftover_cover W m 0 hm hb hWle x).2 ⟨h1, hxW⟩
        rcases this with hx | hx
        · obtain ⟨p, hp, hpx⟩ := (mem_unionIco m x).1 hx
          exact ⟨p, List.mem_append.2 (Or.inl hp), hpx.1, le_of_lt hpx.2⟩
        · obtain ⟨p, hp, hpx⟩ := (mem_unionIco _ x).1 hx
          exact ⟨p, List.mem_append.2 (Or.inr hp), hpx.1, le_of_lt hpx.2⟩
      · have hxW' : x = W := le_antisymm h2 (not_lt.1 hxW)
        obtain ⟨q, hq, hqW⟩ := leftover_end_W W m 0 hm hb hW
        have hq1 : q.1 ≤ x := by
          rcases hq with hq' | hq'
          · rw [hxW', ← hqW]; exact le_of_lt (hb q hq').2.1
          · rw [hxW', ← hqW]
            exact le_of_lt (leftover_from_bounds W m 0 hm hb q hq').2.1
        refine ⟨q, List.mem_append.2 ?_, hq1, by rw [hxW', hqW]⟩
        rcases hq with hq' | hq'
        · exact Or.inl hq'
        · exact Or.inr hq'
  · rw [List.pairwise_append]
    refine ⟨hm.imp (fun h => disjoint_Ioo_of_le _ _ (le_of_lt h)),
      (leftover_from_pairwise W m 0 hm hb).imp
        (fun h => disjoint_Ioo_of_le _ _ h), ?_⟩
    intro p hp q hq
    rcases leftover_from_cross W m 0 hm hb p hp q hq with h | h
    · exact (disjoint_Ioo_of_le _ _ h).symm
    · exact disjoint_Ioo_of_le _ _ h

/-! ## The intersection and segment engine -/

lemma cuts_of_bounds (rc : List Column) (W : ℚ) :
    ∀ p ∈ cuts_of rc W, 0 ≤ p.1 ∧ p.1 < p.2 ∧ p.2 ≤ W := by
  intro p hp
  simp only [cuts_of, List.mem_filterMap] at hp
  obtain ⟨c, _, hcp⟩ := hp
  simp only [cut_of] at hcp
  set x1 := if c.cx - c.cr < 0 then 0 else c.cx - c.cr with hx1
  set x2 := if W < c.cx + c.cr then W else c.cx + c.cr with hx2
  by_cases hlt : x1 < x2
  · rw [if_pos hlt] at hcp
    obtain rfl := Option.some_inj.1 hcp
    refine ⟨?_, hlt, ?_⟩
    · rw [hx1]
      split
      · exact le_refl 0
      · next h => exact not_lt.1 h
    · rw [hx2]
      split
      · exact le_refl W
      · next h => exact not_lt.1 h
  · rw [if_neg hlt] at hcp
    exact absurd hcp (by simp)

/-- C4: for an intersected row (positive hall width, at least one
non-ignored assigned column), the merged cut intervals together with the
usable segments exactly partition `[0, W]`: their union is `[0, W]` and
their interiors are pairwise disjoint. -/
theorem segment_row_partition (columns : List Column) (ignore : List String)
    (W ys ye : ℚ) (hW : 0 < W)
    (hne : row_cols columns ignore ys ye ≠ []) :
    unionIcc ((segment_row columns ignore W ys ye).2.1 ++
        (segment_row columns ignore W ys ye).2.2) = Set.Icc 0 W ∧
    ((segment_row columns ignore W ys ye).2.1 ++
        (segment_row columns ignore W ys ye).2.2).Pairwise
      (fun p q => Disjoint (Set.Ioo p.1 p.2) (Set.Ioo q.1 q.2)) := by
  have hemp : (row_cols columns ignore ys ye).isEmpty = false :=
    List.isEmpty_eq_false.2 hne
  have hseg : segment_row columns ignore W ys ye =
      (true, merge_intervals (cuts_of (row_cols columns ignore ys ye) W),
        leftover_of
          (merge_intervals (cuts_of (row_cols columns ignore ys ye) W)) W) := by
    simp [segment_row, hemp]
  rw [hseg]
  exact merged_leftover_partition W _ hW (merge_intervals_gap _)
    (merge_intervals_bounds _ 0 W
      (fun p hp => (cuts_of_bounds _ _ p hp).1)
      (fun p hp => (cuts_of_bounds _ _ p hp).2.2)
      (fun p hp => (cuts_of_bounds _ _ p hp).2.1))

/-- Witness for C4: one column of radius 2 at x = 5 in a hall of width 10,
row band `[0, 2)`. -/
theorem segment_row_partition_witness :
    (0:ℚ) < 10 ∧
    row_cols [⟨"C2", 5, 1, 2⟩] [] 0 2 ≠ [] ∧
    (unionIcc ((segment_row [⟨"C2", 5, 1, 2⟩] [] 10 0 2).2.1 ++
        (segment_row [⟨"C2", 5, 1, 2⟩] [] 10 0 2).2.2) = Set.Icc 0 10 ∧
      ((segment_row [⟨"C2", 5, 1, 2⟩] [] 10 0 2).2.1 ++
        (segment_row [⟨"C2", 5, 1, 2⟩] [] 10 0 2).2.2).Pairwise
        (fun p q => Disjoint (Set.Ioo p.1 p.2) (Set.Ioo q.1 q.2))) :=
  ⟨by norm_num,
    by norm_num [row_cols, custom_cols, in_band, List.filter],
    segment_row_partition [⟨"C2", 5, 1, 2⟩] [] 10 0 2 (by norm_num)
      (by norm_num [row_cols, custom_cols, in_band, List.filter])⟩

lemma mem_row_cols (columns : List Column) (ignore : List String)
    (ys ye : ℚ) (c : Column) :
    c ∈ row_cols columns ignore ys ye ↔
      c ∈ columns ∧ c.lbl ∉ ignore ∧ ys ≤ c.cy ∧ c.cy < ye := by
  simp only [row_cols, custom_cols, in_band, List.mem_filter,
    Bool.and_eq_true, decide_eq_true_eq, and_assoc]

/-- C5: a row is classified as intersected iff at least one column whose
label is not ignored has its center y in the half-open band
`[row.start, row.end)`; changing every radius arbitrarily never changes
the classification. -/
theorem is_custom_center_iff (columns : List Column) (ignore : List String)
    (ys ye : ℚ) :
    (is_custom columns ignore ys ye = true ↔
      ∃ c ∈ columns, c.lbl ∉ ignore ∧ ys ≤ c.cy ∧ c.cy < ye) ∧
    (∀ f : Column → ℚ,
      is_custom (columns.map (fun c => ⟨c.lbl, c.cx, c.cy, f c⟩)) ignore ys ye =
        is_custom columns ignore ys ye) := by
  constructor
  · constructor
    · intro h
      have hne : row_cols columns ignore ys ye ≠ [] := by
        intro hnil
        rw [is_custom, hnil] at h
        simp at h
      obtain ⟨c, hc⟩ := List.exists_mem_of_ne_nil _ hne
      have hc' := (mem_row_cols columns ignore ys ye c).1 hc
      exact ⟨c, hc'.1, hc'.2⟩
    · rintro ⟨c, hc, hprops⟩
      have hmem : c ∈ row_cols columns ignore ys ye :=
        (mem_row_cols columns ignore ys ye c).2 ⟨hc, hprops⟩
      rw [is_custom, Bool.not_eq_true', List.isEmpty_eq_false]
      intro hnil
      rw [hnil] at hmem
      exact absurd hmem (List.not_mem_nil c)
  · intro f
    have hmap : row_cols
        (columns.map (fun c => (⟨c.lbl, c.cx, c.cy, f c⟩ : Column)))
        ignore ys ye =
        (row_cols columns ignore ys ye).map
          (fun c => (⟨c.lbl, c.cx, c.cy, f c⟩ : Column)) := by
      rw [row_cols, row_cols, custom_cols, custom_cols,
        List.filter_map, List.filter_map]
      rfl
    rw [is_custom, is_custom, hmap]
    cases row_cols columns ignore ys ye <;> rfl

/-- C8: a row with zero intersecting non-ignored columns yields no cut
intervals and exactly one usable segment `(0, W)`. -/
theorem segment_row_plain (columns : List Column) (ignore : List String)
    (W ys ye : ℚ) (hW : 0 < W)
    (h : ∀ c ∈ columns, c.lbl ∉ ignore → ¬(ys ≤ c.cy ∧ c.cy < ye)) :
    segment_row columns ignore W ys ye = (false, [], [(0, W)]) := by
  have hnil : row_cols columns ignore ys ye = [] := by
    rw [List.eq_nil_iff_forall_not_mem]
    intro c hc
    rw [mem_row_cols] at hc
    exact h c hc.1 hc.2.1 ⟨hc.2.2.1, hc.2.2.2⟩
  simp [segment_row, hnil]

/-- Witness for C8: a single ignored column inside the band, hall width 10,
band `[0, 2)`. -/
theorem segment_row_plain_witness :
    (0:ℚ) < 10 ∧
    (∀ c ∈ [(⟨"C1", 1, 1, 1⟩ : Column)], c.lbl ∉ ["C1"] →
      ¬((0:ℚ) ≤ c.cy ∧ c.cy < 2)) ∧
    segment_row [⟨"C1", 1, 1, 1⟩] ["C1"] 10 0 2 = (false, [], [(0, 10)]) :=
  ⟨by norm_num, by decide,
    segment_row_plain [⟨"C1", 1, 1, 1⟩] ["C1"] 10 0 2 (by norm_num) (by decide)⟩

/-- C3 counterexample: an ignored column whose center lies inside the
row band is *not* associated with the row: `row_cols` is empty and its
label does not appear in the row's intervening-columns list. -/
theorem row_cols_ignored_cex :
    ("C1" ∈ ["C1"]) ∧ in_band 1 0 2 = true ∧
    row_cols [⟨"C1", 1, 1, 1⟩] ["C1"] 0 2 = [] ∧
    "C1" ∉ (row_cols [⟨"C1", 1, 1, 1⟩] ["C1"] 0 2).map Column.lbl := by
  refine ⟨by decide, by decide, by decide, by decide⟩

/-- C3 (amended): a label appears in a row's intervening-columns list iff
it belongs to a *non-ignored* column whose center y lies in the row band;
ignored columns are excluded from the per-row association (they are only
drawn in the global column-drawing pass, which iterates all columns). -/
theorem row_cols_label_mem (columns : List Column) (ignore : List String)
    (ys ye : ℚ) (lbl : String) :
    lbl ∈ (row_cols columns ignore ys ye).map Column.lbl ↔
      ∃ c ∈ columns, c.lbl = lbl ∧ c.lbl ∉ ignore ∧
        ys ≤ c.cy ∧ c.cy < ye := by
  rw [List.mem_map]
  constructor
  · rintro ⟨c, hc, rfl⟩
    have hc' := (mem_row_cols columns ignore ys ye c).1 hc
    exact ⟨c, hc'.1, rfl, hc'.2⟩
  · rintro ⟨c, hc, rfl, hprops⟩
    exact ⟨c, (mem_row_cols columns ignore ys ye c).2 ⟨hc, hprops⟩, rfl⟩

/-! ## The row builder -/

lemma rows_cover_nil : rows_cover [] = ∅ := by
  ext x
  simp [rows_cover]

lemma rows_cover_cons (r : Nat × ℚ × ℚ) (rows : List (Nat × ℚ × ℚ)) :
    rows_cover (r :: rows) = Set.Ico r.2.1 r.2.2 ∪ rows_cover rows := by
  ext x
  simp only [rows_cover, Set.mem_setOf_eq, List.mem_cons, Set.mem_union,
    Set.mem_Ico]
  constructor
  · rintro ⟨s, rfl | hs, hx⟩
    · exact Or.inl hx
    · exact Or.inr ⟨s, hs, hx⟩
  · rintro (hx | ⟨s, hs, hx⟩)
    · exact ⟨r, Or.inl rfl, hx⟩
    · exact ⟨s, Or.inr hs, hx⟩

lemma resolved_height_pos (forced : List (Nat × ℚ)) (d : ℚ) (i : Nat)
    (hd : 0 < d) (hf : ∀ p ∈ forced, 0 < p.2) :
    0 < resolved_height forced d i := by
  induction forced with
  | nil => exact hd
  | cons p rest ih =>
    obtain ⟨k, h⟩ := p
    rw [resolved_height]
    split
    · exact hf (k, h) (List.mem_cons_self _ _)
    · exact ih (fun q hq => hf q (List.mem_cons_of_mem _ hq))

lemma build_rows_aux_props (L d : ℚ) (forced : List (Nat × ℚ))
    (hd : 0 < d) (hf : ∀ p ∈ forced, 0 < p.2) :
    ∀ fuel cur i rows, build_rows_aux L d forced fuel cur i = some rows →
      (∀ r ∈ rows, cur ≤ r.2.1 ∧ r.2.1 < r.2.2 ∧ r.2.2 ≤ L) ∧
      (∀ r0, rows.head? = some r0 → r0.2.1 = cur) ∧
      List.Chain' (fun a b => a.2.2 = b.2.1) rows ∧
      rows.map Prod.fst = List.range' i rows.length ∧
      rows.Pairwise (fun a b => a.2.2 ≤ b.2.1) ∧
      rows_cover rows = Set.Ico cur L := by
  intro fuel
  induction fuel with
  | zero => intro cur i rows h; exact absurd h (by simp [build_rows_aux])
  | succ n ih =>
    intro cur i rows h
    rw [build_rows_aux] at h
    by_cases hc : L ≤ cur
    · rw [if_pos hc] at h
      obtain rfl : rows = [] := (Option.some_inj.1 h).symm
      refine ⟨by simp, by simp, by simp, by simp, by simp, ?_⟩
      rw [rows_cover_nil]
      exact (Set.Ico_eq_empty (not_lt.2 hc)).symm
    · rw [if_neg hc] at h
      dsimp only [] at h
      push_neg at hc
      cases hrec : build_rows_aux L d forced n
          (if L < cur + resolved_height forced d i then L
            else cur + resolved_height forced d i) (i + 1) with
      | none => rw [hrec] at h; exact absurd h (by simp)
      | some rest =>
        rw [hrec] at h
        obtain rfl : rows = (i, cur,
            if L < cur + resolved_height forced d i then L
              else cur + resolved_height forced d i) :: rest :=
          (Option.some_inj.1 h).symm
        obtain ⟨ihb, ihh, ihc, ihm, ihp, ihcov⟩ := ih _ (i + 1) rest hrec
        have hre : 0 < resolved_height forced d i :=
          resolved_height_pos forced d i hd hf
        have hcurE : cur < if L < cur + resolved_height forced d i then L
            else cur + resolved_height forced d i := by
          split
          · exact hc
          · exact lt_add_of_pos_right cur hre
        have heL : (if L < cur + resolved_height forced d i then L
            else cur + resolved_height forced d i) ≤ L := by
          split
          · exact le_refl L
          · next hx => exact not_lt.1 hx
        refine ⟨?_, ?_, ?_, ?_, ?_, ?_⟩
        · intro r hr
          rcases List.mem_cons.1 hr with rfl | hr'
          · exact ⟨le_refl _, hcurE, heL⟩
          · have := ihb r hr'
            exact ⟨le_trans (le_of_lt hcurE) this.1, this.2⟩
        · intro r0 hr0
          rw [List.head?_cons, Option.some_inj] at hr0
          rw [← hr0]
        · refine List.chain'_cons'.2 ⟨?_, ihc⟩
          intro b hb
          exact (ihh b hb).symm
        · rw [List.map_cons, List.length_cons, List.range'_succ, ihm]
        · refine List.pairwise_cons.2 ⟨?_, ihp⟩
          intro b hb
          exact (ihb b hb).1
        · rw [rows_cover_cons, ihcov]
          exact Set.Ico_union_Ico_eq_Ico (le_of_lt hcurE) heL

/-- C2 (amended: all forced heights positive): whenever `build_rows`
returns a row list, that list starts at 0, is contiguous (each start is
the previous end), has indices 1, 2, 3, … with no gaps, is pairwise
non-overlapping, and its `[start, end)` bands cover exactly
`[0, totalLength)`. -/
theorem build_rows_partition (fuel : Nat) (L d : ℚ)
    (forced : List (Nat × ℚ)) (rows : List (Nat × ℚ × ℚ))
    (hL : 0 < L) (hd : 0 < d) (hf : ∀ p ∈ forced, 0 < p.2)
    (hr : build_rows fuel L d forced = some rows) :
    (∀ r0, rows.head? = some r0 → r0.2.1 = 0) ∧
    List.Chain' (fun a b => a.2.2 = b.2.1) rows ∧
    rows.map Prod.fst = List.range' 1 rows.length ∧
    rows.Pairwise
      (fun a b => Disjoint (Set.Ico a.2.1 a.2.2) (Set.Ico b.2.1 b.2.2)) ∧
    rows_cover rows = Set.Ico 0 L := by
  obtain ⟨hb, hh, hc, hm, hp, hcov⟩ :=
    build_rows_aux_props L d forced hd hf fuel 0 1 rows hr
  exact ⟨hh, hc, hm, hp.imp (fun h => disjoint_Ico_of_le _ _ h), hcov⟩

/-- Witness for C2 at `totalLength = 5`, `defaultHeight = 2`, no forced
heights (Example 1 of the specification). -/
theorem build_rows_partition_witness :
    (0:ℚ) < 5 ∧ (0:ℚ) < 2 ∧
    build_rows 10 5 2 [] = some [(1, 0, 2), (2, 2, 4), (3, 4, 5)] ∧
    (List.Chain' (fun a b => a.2.2 = b.2.1)
        [((1:Nat), (0:ℚ), (2:ℚ)), (2, 2, 4), (3, 4, 5)] ∧
      rows_cover [((1:Nat), (0:ℚ), (2:ℚ)), (2, 2, 4), (3, 4, 5)] =
        Set.Ico 0 5) := by
  have heval : build_rows 10 5 2 [] = some [(1, 0, 2), (2, 2, 4), (3, 4, 5)] := by
    norm_num [build_rows, build_rows_aux, resolved_height]
  have h := build_rows_partition 10 5 2 [] [(1, 0, 2), (2, 2, 4), (3, 4, 5)]
    (by norm_num) (by norm_num) (by simp) heval
  exact ⟨by norm_num, by norm_num, heval, h.2.1, h.2.2.2.2⟩

/-- C2 counterexample for the claim as stated (arbitrary `forcedHeights`):
with `forcedHeights = {2: -1}` the produced rows overlap (row 1 covers
`[0, 2)` and row 3 covers `[1, 3)`), so the non-overlap part fails. -/
theorem build_rows_arbitrary_forced_cex :
    build_rows 10 5 2 [(2, -1)] =
      some [(1, 0, 2), (2, 2, 1), (3, 1, 3), (4, 3, 5)] ∧
    ¬ ([((1:Nat), (0:ℚ), (2:ℚ)), (2, 2, 1), (3, 1, 3), (4, 3, 5)].Pairwise
        (fun a b => Disjoint (Set.Ico a.2.1 a.2.2) (Set.Ico b.2.1 b.2.2))) := by
  constructor
  · norm_num [build_rows, build_rows_aux, resolved_height]
  · intro hp
    rw [List.pairwise_cons] at hp
    have h13 := hp.1 (3, 1, 3) (by simp)
    have h1 : (3/2 : ℚ) ∈ Set.Ico (0:ℚ) 2 := by
      rw [Set.mem_Ico]; norm_num
    have h2 : (3/2 : ℚ) ∈ Set.Ico (1:ℚ) 3 := by
      rw [Set.mem_Ico]; norm_num
    exact Set.disjoint_left.1 h13 h1 h2

/-- C1: with `totalLength = 5 > 0` and `forcedHeights = {2: -1}` (a
non-positive resolved height), `build_rows` raises nothing: it silently
returns rows, including the inverted row `(2, 2, 1)` whose end precedes
its start.  This exhibits the behaviour the specification forbids. -/
theorem build_rows_negative_forced_silent :
    build_rows 10 5 2 [(2, -1)] =
      some [(1, 0, 2), (2, 2, 1), (3, 1, 3), (4, 3, 5)] ∧
    ((2:Nat), (2:ℚ), (1:ℚ)) ∈
      [((1:Nat), (0:ℚ), (2:ℚ)), (2, 2, 1), (3, 1, 3), (4, 3, 5)] ∧
    ((1:ℚ) < 2) := by
  refine ⟨?_, by simp, by norm_num⟩
  norm_num [build_rows, build_rows_aux, resolved_height]

/-- C9: for `totalLength ≤ 0` the row builder returns the empty sequence
(and, in particular, no error): the loop stops immediately. -/
theorem build_rows_empty_on_nonpositive_length (fuel : Nat) (L d : ℚ)
    (forced : List (Nat × ℚ)) (hL : L ≤ 0) (hfuel : 0 < fuel) :
    build_rows fuel L d forced = some [] := by
  cases fuel with
  | zero => exact absurd hfuel (lt_irrefl 0)
  | succ n =>
    rw [build_rows, build_rows_aux, if_pos hL]

/-- Witness for C9 at `totalLength = -1`. -/
theorem build_rows_empty_on_nonpositive_length_witness :
    (-1 : ℚ) ≤ 0 ∧ (0 < 1) ∧ build_rows 1 (-1) 2 [] = some [] :=
  ⟨by norm_num, by norm_num,
    build_rows_empty_on_nonpositive_length 1 (-1) 2 [] (by norm_num)
      (by norm_num)⟩

/-! ## Parsing -/

lemma unpack4_eq_none {α : Type} (parts : List α) (h : parts.length ≠ 4) :
    unpack4 parts = none := by
  rcases parts with _ | ⟨a, _ | ⟨b, _ | ⟨c, _ | ⟨d, _ | ⟨e, rest⟩⟩⟩⟩⟩ <;>
    simp [unpack4] at h ⊢

lemma unpack4_eq_some_length {α : Type} (parts : List α)
    (q : α × α × α × α) (h : unpack4 parts = some q) : parts.length = 4 := by
  by_contra hne
  rw [unpack4_eq_none parts hne] at h
  exact absurd h (by simp)

/-- C10: a line's fields produce a column record only when there are
exactly 4 of them: fewer than 4 comma-separated fields hit the explicit
length check and raise `ValueError`, more than 4 make the 4-way unpacking
raise `ValueError`, and a successful parse forces exactly 4 fields. -/
theorem parse_fields_requires_four (parseNum : String → Option ℚ)
    (c2r : ℚ → ℚ) (line : String) (parts : List String) :
    (parts.length < 4 → parse_fields parseNum c2r line parts =
      Except.error ("Invalid column line: " ++ line)) ∧
    (4 < parts.length → parse_fields parseNum c2r line parts =
      Except.error "too many values to unpack") ∧
    (∀ col, parse_fields parseNum c2r line parts = Except.ok col →
      parts.length = 4) := by
  refine ⟨fun h => by rw [parse_fields, if_pos h], fun h => ?_, ?_⟩
  · have h4 : ¬ parts.length < 4 := by omega
    rw [parse_fields, if_neg h4, unpack4_eq_none parts (by omega)]
  · intro col h
    rw [parse_fields] at h
    by_cases h4 : parts.length < 4
    · rw [if_pos h4] at h
      exact absurd h (by simp)
    · rw [if_neg h4] at h
      cases hu : unpack4 parts with
      | none => rw [hu] at h; exact absurd h (by simp)
      | some q => exact unpack4_eq_some_length parts q hu

/-- Witness for C10: a 5-field line fails in the unpacking, a 3-field
line fails the length check. -/
theorem parse_fields_requires_four_witness :
    ((4:Nat) < (["a", "1", "2", "3", "4"] : List String).length ∧
      parse_fields (fun _ => some 0) id "x" ["a", "1", "2", "3", "4"] =
        Except.error "too many values to unpack") ∧
    ((["a", "1", "2"] : List String).length < 4 ∧
      parse_fields (fun _ => some 0) id "y" ["a", "1", "2"] =
        Except.error ("Invalid column line: " ++ "y")) :=
  ⟨⟨by decide,
    (parse_fields_requires_four (fun _ => some 0) id "x"
      ["a", "1", "2", "3", "4"]).2.1 (by decide)⟩,
   ⟨by decide,
    (parse_fields_requires_four (fun _ => some 0) id "y"
      ["a", "1", "2"]).1 (by decide)⟩⟩

end PrayerHall
